import Mathlib

/-!
Shallow embedding of the `pubsubstar` module (src/index.js) and proofs about it.

The module keeps, per context, a hidden registry `_pubsub` mapping topic strings
to arrays of subscriber functions.  `subscribe` validates its arguments and adds
a subscriber; `unsubscribe` and `publish` go through `forEachTopic`, which
returns early when the registry is absent, validates the `topics` argument,
compiles a string spec into the regex `'^' + topics.replace(/([^\\])\*+/g,'$1.*')
.replace(/^\*/,'.*') + '$'` (a caller-supplied RegExp is used directly), and
iterates the registry's keys in JavaScript `for in` order (array-index-like keys
ascending first, then remaining keys in insertion order).

Strings are modelled as `List Char`; subscriber functions as an abstract type
`σ` with decidable (reference) equality; a caller-supplied RegExp as its test
predicate `List Char → Bool`; subscriber invocation as `σ → Except ε ρ` where an
`Except.error` models a synchronously thrown exception.  Constructed regexes are
modelled by parsing the compiled source into a small AST (`RItem`): the parser
returns `none` on regex constructs outside the modelled fragment, and results of
`publish`/`unsubscribe` are likewise `Option`-guarded on that fragment.
-/

namespace Pubsubstar

/-- Topic keys and pattern sources are JavaScript strings, modelled as lists of characters. -/
abbrev Key : Type := List Char

/-- A JavaScript value as it can be passed to the public API: a string, a function
(subscriber reference, drawn from an abstract type `σ` with reference equality),
a RegExp (modelled by its `test` predicate), any other falsy value
(`undefined`, `null`, `false`, `0`, `NaN`), or any other truthy non-callable value. -/
inductive JSVal (σ : Type) where
  | str : Key → JSVal σ
  | fn : σ → JSVal σ
  | regexp : (Key → Bool) → JSVal σ
  | falsy : JSVal σ
  | truthyOther : JSVal σ

/-- JavaScript truthiness of a `JSVal` (the empty string is falsy). -/
def truthy {σ : Type} : JSVal σ → Bool
  | .str s => !s.isEmpty
  | .fn _ => true
  | .regexp _ => true
  | .falsy => false
  | .truthyOther => true

/-- Whether `typeof v === 'string'`. -/
def isStringVal {σ : Type} : JSVal σ → Bool
  | .str _ => true
  | _ => false

/-- Whether `typeof v === 'function'`. -/
def isFunctionVal {σ : Type} : JSVal σ → Bool
  | .fn _ => true
  | _ => false

/-- Whether `v` is acceptable as the `topics` argument of `forEachTopic`:
a string or a RegExp. -/
def isTopicSpec {σ : Type} : JSVal σ → Bool
  | .str _ => true
  | .regexp _ => true
  | _ => false

/-- The `_pubsub` registry: topic keys mapped to arrays of subscribers, listed in
property creation order.  JavaScript object keys are unique; theorems carry that
as a `Nodup` hypothesis. -/
abbrev Reg (σ : Type) : Type := List (Key × List σ)

/-- Property read `namespace[topic]`. -/
def lookupReg {σ : Type} : Reg σ → Key → Option (List σ)
  | [], _ => none
  | e :: es, k => if e.1 = k then some e.2 else lookupReg es k

/-- Overwrite the array stored at an existing key (in-place array mutation such as
`push`/`splice` leaves the key's position unchanged). -/
def updateReg {σ : Type} (reg : Reg σ) (k : Key) (subs : List σ) : Reg σ :=
  reg.map (fun e => if e.1 = k then (k, subs) else e)

/-- Property deletion `delete namespace[topic]`. -/
def deleteReg {σ : Type} (reg : Reg σ) (k : Key) : Reg σ :=
  reg.filter (fun e => decide (e.1 ≠ k))

/-- The effect of `subscribers.splice(subscribers.indexOf(f), 1)` when `indexOf`
succeeds: remove the first occurrence of `f`. -/
def removeFirst {σ : Type} [DecidableEq σ] (f : σ) : List σ → List σ
  | [] => []
  | x :: xs => if x = f then xs else x :: removeFirst f xs

/-- Numeric value of a digit string (used to model JavaScript array-index keys). -/
def digitsToNat (k : Key) : Nat :=
  k.foldl (fun n c => 10 * n + (c.toNat - 48)) 0

/-- Whether a key is a JavaScript array index: the canonical decimal form (no
leading zero except `"0"` itself) of an integer below `2^32 - 1`.  `for in`
enumerates such keys first, in ascending numeric order. -/
def isCanonicalIndex (k : Key) : Bool :=
  !k.isEmpty && k.all (fun c => c.isDigit)
    && (decide (k.length = 1) || decide (k.head? ≠ some '0'))
    && decide (digitsToNat k < 4294967295)

/-- Array-index value of a key, when it is one. -/
def arrayIndexVal (k : Key) : Option Nat :=
  if isCanonicalIndex k then some (digitsToNat k) else none

/-- Sort value used to order array-index keys. -/
def idxVal (k : Key) : Nat := (arrayIndexVal k).getD 0

/-- Insert an entry into a list of array-index entries, keeping ascending order. -/
def insertAsc {σ : Type} (e : Key × List σ) : Reg σ → Reg σ
  | [] => [e]
  | x :: xs => if idxVal e.1 ≤ idxVal x.1 then e :: x :: xs else x :: insertAsc e xs

/-- Sort array-index entries ascending by numeric value. -/
def sortIdx {σ : Type} : Reg σ → Reg σ
  | [] => []
  | e :: es => insertAsc e (sortIdx es)

/-- The order in which `for (var topic in namespace)` visits registry entries:
array-index keys ascending, then the remaining keys in creation order. -/
def iterationOrder {σ : Type} (reg : Reg σ) : Reg σ :=
  sortIdx (reg.filter (fun e => (arrayIndexVal e.1).isSome))
    ++ reg.filter (fun e => (arrayIndexVal e.1).isNone)

/-- Scanner state for the global replacement `topics.replace(/([^\\])\*+/g, '$1.*')`:
`idle` between matches, `pending c` when the non-backslash character `c` awaits
the lookahead that decides whether it is followed by asterisks, `skipping`
while the matched (greedy) run of asterisks is being consumed. -/
inductive RSState where
  | idle : RSState
  | skipping : RSState
  | pending : Char → RSState

/-- Scanner for the global replacement `topics.replace(/([^\\])\*+/g, '$1.*')`:
any non-backslash character followed by one or more asterisks is rewritten to
that character followed by `.*`, and scanning resumes after the consumed
asterisks. -/
def rsAux : RSState → Key → Key
  | .idle, [] => []
  | .skipping, [] => []
  | .pending p, [] => [p]
  | .idle, c :: rest =>
    if c = '\\' then c :: rsAux .idle rest else rsAux (.pending c) rest
  | .pending p, c :: rest =>
    if c = '*' then p :: '.' :: '*' :: rsAux .skipping rest
    else if c = '\\' then p :: c :: rsAux .idle rest
    else p :: rsAux (.pending c) rest
  | .skipping, c :: rest =>
    if c = '*' then rsAux .skipping rest
    else if c = '\\' then c :: rsAux .idle rest
    else rsAux (.pending c) rest

/-- The global replacement `topics.replace(/([^\\])\*+/g, '$1.*')`. -/
def replaceStars (s : Key) : Key := rsAux .idle s

/-- The anchored replacement `.replace(/^\*/, '.*')`: a single leading asterisk
becomes `.*`. -/
def replaceLeadingStar : Key → Key
  | '*' :: rest => '.' :: '*' :: rest
  | s => s

/-- Source text (between the added `^` and `$` anchors) of the RegExp constructed
from a string topic spec. -/
def wildcardSource (spec : Key) : Key := replaceLeadingStar (replaceStars spec)

/-- One item of the modelled regex fragment: a literal character, `.`
(any single character), or `.*` (any sequence of characters). -/
inductive RItem where
  | lit : Char → RItem
  | anyOne : RItem
  | anyStar : RItem
deriving DecidableEq

/-- Characters that are not matched literally when they stand alone in a
JavaScript regex body. -/
def regexMeta : List Char :=
  ['^', '$', '\\', '.', '*', '+', '?', '(', ')', '[', ']', '{', '}', '|']

/-- Parser state: `normal` at an item boundary, `afterBackslash` when the
previous character was an escaping backslash, `afterDot` when the previous
character was `.` and the lookahead for a `*` quantifier is still open. -/
inductive PState where
  | normal : PState
  | afterBackslash : PState
  | afterDot : PState

/-- Parse a regex body into the modelled fragment.  Returns `none` (claim left
outside the model) for alphanumeric escapes, a dangling backslash, and bare
metacharacters — in particular for any quantifier applying to anything other
than a directly preceding `.`, since such a quantifier character is itself a
bare metacharacter here. -/
def piAux : PState → Key → Option (List RItem)
  | .normal, [] => some []
  | .afterBackslash, [] => none
  | .afterDot, [] => some [RItem.anyOne]
  | .normal, c :: rest =>
    if c = '\\' then piAux .afterBackslash rest
    else if c = '.' then piAux .afterDot rest
    else if c ∈ regexMeta then none
    else (piAux .normal rest).map (fun items => RItem.lit c :: items)
  | .afterBackslash, c :: rest =>
    if c.isAlphanum then none
    else (piAux .normal rest).map (fun items => RItem.lit c :: items)
  | .afterDot, c :: rest =>
    if c = '*' then (piAux .normal rest).map (fun items => RItem.anyStar :: items)
    else if c = '\\' then (piAux .afterBackslash rest).map (fun items => RItem.anyOne :: items)
    else if c = '.' then (piAux .afterDot rest).map (fun items => RItem.anyOne :: items)
    else if c ∈ regexMeta then none
    else (piAux .normal rest).map (fun items => RItem.anyOne :: RItem.lit c :: items)

/-- Parse a full regex body, starting at an item boundary. -/
def parseItems (s : Key) : Option (List RItem) := piAux .normal s

/-- All suffixes of a key, longest first: the candidate remainders after `.*`
has consumed an arbitrary prefix. -/
def suffixes : Key → List Key
  | [] => [[]]
  | x :: xs => (x :: xs) :: suffixes xs

/-- Whether a full anchored match of the item sequence against the whole key
exists: the semantics of `new RegExp('^' + body + '$').test(key)` for bodies in
the modelled fragment.  `.*` consumes an arbitrary prefix, so it matches when
the remaining items match some suffix. -/
def itemsMatch : List RItem → Key → Bool
  | [], s => s.isEmpty
  | RItem.lit c :: ps, s =>
    match s with
    | [] => false
    | x :: xs => decide (x = c) && itemsMatch ps xs
  | RItem.anyOne :: ps, s =>
    match s with
    | [] => false
    | _ :: xs => itemsMatch ps xs
  | RItem.anyStar :: ps, s => (suffixes s).any (fun t => itemsMatch ps t)

/-- Result of the `topics` normalisation in `forEachTopic`: either the
caller-supplied RegExp used as-is, or the source of the constructed wildcard
regex. -/
inductive CompiledTopics where
  | native : (Key → Bool) → CompiledTopics
  | wildcard : Key → CompiledTopics

/-- Argument validation and regex construction of `forEachTopic` (lines 183-188):
a RegExp passes through untouched, a string is compiled, anything else throws
`TypeError`. -/
def compileArg {σ : Type} : JSVal σ → Except Unit CompiledTopics
  | .regexp p => .ok (.native p)
  | .str s => .ok (.wildcard (wildcardSource s))
  | _ => .error ()

/-- The predicate `topics.test` applied to registry keys.  `none` when the
constructed regex body falls outside the modelled fragment. -/
def predOf : CompiledTopics → Option (Key → Bool)
  | .native p => some p
  | .wildcard s => (parseItems s).map (fun items key => itemsMatch items key)

/-- The compiled predicate of a string topic spec, applied to one key. -/
def specTest (spec key : Key) : Option Bool :=
  (predOf (CompiledTopics.wildcard (wildcardSource spec))).map (fun p => p key)

/-- The kind of `TypeError` thrown by `subscribe`. -/
inductive TypeErrorKind where
  | topicNotString : TypeErrorKind
  | subscriberNotFunction : TypeErrorKind
deriving DecidableEq

/-- Outcome of a `subscribe` call: the context's registry afterwards (`none` when
it was never allocated) and the error thrown, if any. -/
structure SubscribeOutcome (σ : Type) where
  state : Option (Reg σ)
  thrown : Option TypeErrorKind
deriving DecidableEq

/-- Core of `subscribe` after validation: `subscribers = namespace[topic] ||
(namespace[topic] = [])` followed by `indexOf`/`push`. -/
def subscribePure {σ : Type} [DecidableEq σ] (reg : Reg σ) (t : Key) (f : σ) : Reg σ :=
  match lookupReg reg t with
  | some subs => if f ∈ subs then reg else updateReg reg t (subs ++ [f])
  | none => reg ++ [(t, [f])]

/-- The `subscribe` method: validates `topic` then `subscriber`, throwing
`TypeError` before touching any state; otherwise lazily allocates the registry
and adds the subscriber. -/
def subscribe {σ : Type} [DecidableEq σ] (st : Option (Reg σ)) (topic subscriber : JSVal σ) :
    SubscribeOutcome σ :=
  match topic with
  | .str t =>
    match subscriber with
    | .fn f => { state := some (subscribePure (st.getD []) t f), thrown := none }
    | _ => { state := st, thrown := some TypeErrorKind.subscriberNotFunction }
  | _ => { state := st, thrown := some TypeErrorKind.topicNotString }

/-- Registry reached from a fresh context by a sequence of valid `subscribe`
calls (invalid calls throw before mutating, so they contribute nothing). -/
def subscribeMany {σ : Type} [DecidableEq σ] (ops : List (Key × σ)) : Reg σ :=
  ops.foldl (fun reg op => subscribePure reg op.1 op.2) []

/-- Invoke a topic's subscribers in order, collecting return values; a thrown
exception (`Except.error`) aborts immediately. -/
def callSubs {σ ρ ε : Type} (call : σ → Except ε ρ) : List σ → Except ε (List ρ)
  | [] => .ok []
  | f :: fs =>
    match call f with
    | .error e => .error e
    | .ok r =>
      match callSubs call fs with
      | .error e => .error e
      | .ok rs => .ok (r :: rs)

/-- The dispatch loop of `publish` over the visited keys: for each key passing
the predicate and still present (`namespace[topic]` check), invoke its
subscribers; an exception propagates out, discarding the partial results. -/
def publishLoop {σ ρ ε : Type} (call : σ → Except ε ρ) (pred : Key → Bool) (reg : Reg σ) :
    List Key → Except ε (List ρ)
  | [] => .ok []
  | k :: ks =>
    if pred k then
      match lookupReg reg k with
      | some subs =>
        match callSubs call subs with
        | .error e => .error e
        | .ok rs =>
          match publishLoop call pred reg ks with
          | .error e => .error e
          | .ok rs2 => .ok (rs ++ rs2)
      | none => publishLoop call pred reg ks
    else publishLoop call pred reg ks

/-- Dispatch of `publish` on a present registry with an already-compiled
predicate. -/
def publishWith {σ ρ ε : Type} (call : σ → Except ε ρ) (pred : Key → Bool) (reg : Reg σ) :
    Except ε (List ρ) :=
  publishLoop call pred reg ((iterationOrder reg).map Prod.fst)

/-- Observable outcome of a `publish` call. -/
inductive PublishResult (ρ ε : Type) where
  | ok : List ρ → PublishResult ρ ε
  | typeError : PublishResult ρ ε
  | subscriberError : ε → PublishResult ρ ε
deriving DecidableEq

/-- The `publish` method.  An absent registry short-circuits to `[]` before any
validation; an invalid `topics` argument throws `TypeError`; otherwise matching
topics' subscribers run in visitation order.  The outer `none` means the
constructed regex fell outside the modelled fragment. -/
def publish {σ ρ ε : Type} (st : Option (Reg σ)) (topics : JSVal σ) (call : σ → Except ε ρ) :
    Option (PublishResult ρ ε) :=
  match st with
  | none => some (.ok [])
  | some reg =>
    match compileArg topics with
    | .error _ => some .typeError
    | .ok ct =>
      (predOf ct).map (fun pred =>
        match publishWith call pred reg with
        | .ok rs => .ok rs
        | .error e => .subscriberError e)

/-- Body of the `unsubscribe` callback for one visited key: with a truthy
subscriber argument, `indexOf`/`splice` (which can only find an actual function
reference); with a falsy one, `delete subscriptions[topic]`. -/
def unsubStep {σ : Type} [DecidableEq σ] (pred : Key → Bool) (arg : JSVal σ) (reg : Reg σ)
    (k : Key) : Reg σ :=
  if pred k then
    match lookupReg reg k with
    | some subs =>
      if truthy arg then
        match arg with
        | .fn f => updateReg reg k (removeFirst f subs)
        | _ => reg
      else deleteReg reg k
    | none => reg
  else reg

/-- The iteration of `unsubscribe` over the visited keys, threading the mutated
registry. -/
def unsubLoop {σ : Type} [DecidableEq σ] (pred : Key → Bool) (arg : JSVal σ) (ks : List Key)
    (reg : Reg σ) : Reg σ :=
  ks.foldl (unsubStep pred arg) reg

/-- `unsubscribe` on a present registry with an already-compiled predicate. -/
def unsubWith {σ : Type} [DecidableEq σ] (pred : Key → Bool) (arg : JSVal σ) (reg : Reg σ) :
    Reg σ :=
  unsubLoop pred arg ((iterationOrder reg).map Prod.fst) reg

/-- Observable outcome of an `unsubscribe` call: the context's registry
afterwards, or a thrown `TypeError` (leaving the registry untouched). -/
inductive UnsubResult (σ : Type) where
  | ok : Option (Reg σ) → UnsubResult σ
  | typeError : UnsubResult σ
deriving DecidableEq

/-- The `unsubscribe` method.  An absent registry returns before any validation;
an invalid `topics` argument throws `TypeError`; otherwise each matching topic
is pruned or deleted.  The outer `none` means the constructed regex fell outside
the modelled fragment. -/
def unsubscribe {σ : Type} [DecidableEq σ] (st : Option (Reg σ)) (topics arg : JSVal σ) :
    Option (UnsubResult σ) :=
  match st with
  | none => some (.ok none)
  | some reg =>
    match compileArg topics with
    | .error _ => some .typeError
    | .ok ct => (predOf ct).map (fun pred => .ok (some (unsubWith pred arg reg)))

/-- Concatenate the subscriber lists of a run of registry entries. -/
def concatSubs {σ : Type} : Reg σ → List σ
  | [] => []
  | e :: es => e.2 ++ concatSubs es

/-- The subscribers a compiled predicate selects, in visitation order: matching
entries in `for in` order, each entry's subscribers in subscription order. -/
def selectedSubs {σ : Type} (pred : Key → Bool) (reg : Reg σ) : List σ :=
  concatSubs ((iterationOrder reg).filter (fun e => pred e.1))

/-- Well-formedness every JavaScript-object registry enjoys: keys are unique, and
(maintained by `subscribe`) each subscriber list is duplicate-free. -/
def RegWF {σ : Type} (reg : Reg σ) : Prop :=
  (reg.map Prod.fst).Nodup ∧ ∀ e ∈ reg, e.2.Nodup

/-! ### Registry lookup lemmas -/

theorem lookupReg_eq_none_iff {σ : Type} {reg : Reg σ} {k : Key} :
    lookupReg reg k = none ↔ ∀ e ∈ reg, e.1 ≠ k := by
  induction reg with
  | nil => simp [lookupReg]
  | cons e es ih =>
    by_cases h : e.1 = k
    · simp [lookupReg, h]
    · simp [lookupReg, h, ih]

theorem lookupReg_mem {σ : Type} {reg : Reg σ} {k : Key} {subs : List σ}
    (h : lookupReg reg k = some subs) : (k, subs) ∈ reg := by
  induction reg with
  | nil => simp [lookupReg] at h
  | cons e es ih =>
    by_cases he : e.1 = k
    · rw [lookupReg, if_pos he] at h
      obtain rfl := Option.some_injective _ h
      exact he ▸ List.mem_cons_self e es
    · rw [lookupReg, if_neg he] at h
      exact List.mem_cons_of_mem _ (ih h)

theorem eq_of_mem_nodup_fst {σ : Type} {reg : Reg σ} (hnd : (reg.map Prod.fst).Nodup)
    {e e' : Key × List σ} (he : e ∈ reg) (he' : e' ∈ reg) (h1 : e.1 = e'.1) : e = e' := by
  induction reg with
  | nil => cases he
  | cons x xs ih =>
    rw [List.map_cons, List.nodup_cons] at hnd
    rcases List.mem_cons.1 he with h | h
    · rcases List.mem_cons.1 he' with h' | h'
      · rw [h, h']
      · exfalso
        apply hnd.1
        rw [← h, h1]
        exact List.mem_map_of_mem Prod.fst h'
    · rcases List.mem_cons.1 he' with h' | h'
      · exfalso
        apply hnd.1
        rw [← h', ← h1]
        exact List.mem_map_of_mem Prod.fst h
      · exact ih hnd.2 h h'

theorem lookupReg_of_mem_nodup {σ : Type} {reg : Reg σ} (hnd : (reg.map Prod.fst).Nodup)
    {k : Key} {subs : List σ} (h : (k, subs) ∈ reg) : lookupReg reg k = some subs := by
  induction reg with
  | nil => cases h
  | cons e es ih =>
    rw [List.map_cons, List.nodup_cons] at hnd
    rcases List.mem_cons.1 h with h | h
    · rw [lookupReg, if_pos (congrArg Prod.fst h.symm), ← h]
    · have hne : e.1 ≠ k := fun hk =>
        hnd.1 (hk ▸ List.mem_map_of_mem Prod.fst h)
      rw [lookupReg, if_neg hne]
      exact ih hnd.2 h

theorem lookupReg_append_left_none {σ : Type} {reg reg2 : Reg σ} {k : Key}
    (h : lookupReg reg k = none) : lookupReg (reg ++ reg2) k = lookupReg reg2 k := by
  induction reg with
  | nil => rfl
  | cons e es ih =>
    rw [lookupReg] at h
    rcases ite_eq_iff.1 h with ⟨_, h'⟩ | ⟨hne, h'⟩
    · cases h'
    · rw [List.cons_append, lookupReg, if_neg hne]
      exact ih h'

theorem lookupReg_updateReg_self {σ : Type} {reg : Reg σ} {k : Key} {subs v : List σ}
    (h : lookupReg reg k = some subs) : lookupReg (updateReg reg k v) k = some v := by
  induction reg with
  | nil => simp [lookupReg] at h
  | cons e es ih =>
    by_cases he : e.1 = k
    · simp [updateReg, lookupReg, he]
    · rw [lookupReg, if_neg he] at h
      simpa [updateReg, lookupReg, he] using ih h

/-! ### Iteration-order lemmas -/

theorem insertAsc_perm {σ : Type} (e : Key × List σ) (l : Reg σ) :
    (insertAsc e l).Perm (e :: l) := by
  induction l with
  | nil => exact List.Perm.refl _
  | cons x xs ih =>
    rw [insertAsc]
    split
    · exact List.Perm.refl _
    · exact (ih.cons x).trans (List.Perm.swap e x xs)

theorem sortIdx_perm {σ : Type} (l : Reg σ) : (sortIdx l).Perm l := by
  induction l with
  | nil => exact List.Perm.refl _
  | cons e es ih => exact (insertAsc_perm e (sortIdx es)).trans (ih.cons e)

theorem iterationOrder_perm {σ : Type} (reg : Reg σ) : (iterationOrder reg).Perm reg := by
  unfold iterationOrder
  refine ((sortIdx_perm _).append_right _).trans ?_
  have h := List.filter_append_perm (fun e => (arrayIndexVal e.1).isSome) reg
  refine List.Perm.trans ?_ h
  refine List.Perm.append_left _ (List.Perm.of_eq (List.filter_congr ?_))
  intro e _
  cases arrayIndexVal e.1 <;> rfl

theorem mem_iterationOrder {σ : Type} {reg : Reg σ} {e : Key × List σ} :
    e ∈ iterationOrder reg ↔ e ∈ reg :=
  (iterationOrder_perm reg).mem_iff

theorem iterationOrder_keys_nodup {σ : Type} {reg : Reg σ}
    (hnd : (reg.map Prod.fst).Nodup) : ((iterationOrder reg).map Prod.fst).Nodup :=
  (((iterationOrder_perm reg).map Prod.fst).nodup_iff).2 hnd

/-! ### Dispatch lemmas -/

theorem callSubs_append {σ ρ ε : Type} (call : σ → Except ε ρ) (xs ys : List σ) :
    callSubs call (xs ++ ys) =
      match callSubs call xs with
      | .error e => .error e
      | .ok rs =>
        match callSubs call ys with
        | .error e => .error e
        | .ok rs2 => .ok (rs ++ rs2) := by
  induction xs with
  | nil =>
    simp only [List.nil_append, callSubs]
    cases callSubs call ys <;> rfl
  | cons f fs ih =>
    rw [List.cons_append]
    cases hcf : call f with
    | error e => simp only [callSubs, hcf, ih]
    | ok r =>
      cases hcs : callSubs call fs with
      | error e => simp only [callSubs, hcf, ih, hcs]
      | ok rs =>
        cases hys : callSubs call ys with
        | error e => simp only [callSubs, hcf, ih, hcs, hys]
        | ok rs2 => simp only [callSubs, hcf, ih, hcs, hys, List.cons_append]

theorem callSubs_ok_map {σ ρ ε : Type} (g : σ → ρ) (fs : List σ) :
    callSubs (ε := ε) (fun s => .ok (g s)) fs = .ok (fs.map g) := by
  induction fs with
  | nil => rfl
  | cons f fs ih => simp only [callSubs, ih, List.map_cons]

theorem callSubs_error_at {σ ρ ε : Type} {call : σ → Except ε ρ} {pre post : List σ}
    {b : σ} {e : ε} (hpre : ∀ s ∈ pre, ∃ r, call s = .ok r) (hb : call b = .error e) :
    callSubs call (pre ++ b :: post) = .error e := by
  induction pre with
  | nil => simp only [List.nil_append, callSubs, hb]
  | cons f fs ih =>
    obtain ⟨r, hr⟩ := hpre f (List.mem_cons_self f fs)
    have ih' := ih (fun s hs => hpre s (List.mem_cons_of_mem _ hs))
    rw [List.cons_append]
    simp only [callSubs, hr, ih']

theorem publishLoop_eq_callSubs {σ ρ ε : Type} (call : σ → Except ε ρ) (pred : Key → Bool)
    (reg : Reg σ) (es : Reg σ) (hlk : ∀ e ∈ es, lookupReg reg e.1 = some e.2) :
    publishLoop call pred reg (es.map Prod.fst) =
      callSubs call (concatSubs (es.filter (fun e => pred e.1))) := by
  induction es with
  | nil => rfl
  | cons e es ih =>
    have h1 := hlk e (List.mem_cons_self e es)
    have ih' := ih (fun e' he' => hlk e' (List.mem_cons_of_mem _ he'))
    rw [List.map_cons]
    cases hp : pred e.1 with
    | false => simpa [publishLoop, hp, List.filter_cons] using ih'
    | true =>
      have hfilter : List.filter (fun e => pred e.1) (e :: es) =
          e :: List.filter (fun e => pred e.1) es := by
        simp [List.filter_cons, hp]
      rw [hfilter, concatSubs, callSubs_append]
      simp only [publishLoop, hp, if_true, h1, ih']

theorem publishWith_eq_callSubs {σ ρ ε : Type} (call : σ → Except ε ρ) (pred : Key → Bool)
    {reg : Reg σ} (hnd : (reg.map Prod.fst).Nodup) :
    publishWith call pred reg = callSubs call (selectedSubs pred reg) := by
  unfold publishWith selectedSubs
  exact publishLoop_eq_callSubs call pred reg _
    (fun e he => lookupReg_of_mem_nodup hnd (mem_iterationOrder.1 he))

/-! ### Unsubscribe lemmas -/

theorem map_id_of_eq {α : Type _} {l : List α} {φ : α → α} (h : ∀ a ∈ l, φ a = a) :
    l.map φ = l := by
  induction l with
  | nil => rfl
  | cons x xs ih =>
    rw [List.map_cons, h x (List.mem_cons_self x xs),
      ih (fun a ha => h a (List.mem_cons_of_mem _ ha))]

theorem removeFirst_of_not_mem {σ : Type} [DecidableEq σ] {f : σ} {subs : List σ}
    (h : f ∉ subs) : removeFirst f subs = subs := by
  induction subs with
  | nil => rfl
  | cons x xs ih =>
    rw [removeFirst, if_neg (fun hx : x = f => h (by rw [← hx]; exact List.mem_cons_self x xs)),
      ih (fun hx => h (List.mem_cons_of_mem _ hx))]

theorem map_fst_map_keyPreserving {σ : Type} {reg : Reg σ}
    {φ : (Key × List σ) → (Key × List σ)} (h : ∀ e, (φ e).1 = e.1) :
    (reg.map φ).map Prod.fst = reg.map Prod.fst := by
  rw [List.map_map]
  exact List.map_congr_left (fun e _ => h e)

theorem unsubStep_fn_eq {σ : Type} [DecidableEq σ] (pred : Key → Bool) (f : σ) {reg : Reg σ}
    (hnd : (reg.map Prod.fst).Nodup) (k : Key) :
    unsubStep pred (JSVal.fn f) reg k =
      reg.map (fun e => if pred e.1 ∧ e.1 = k then (e.1, removeFirst f e.2) else e) := by
  unfold unsubStep
  cases hp : pred k with
  | false =>
    simp only [Bool.false_eq_true, if_false]
    refine (map_id_of_eq (fun e _ => ?_)).symm
    by_cases hek : e.1 = k
    · rw [if_neg]
      rw [hek]
      simp [hp]
    · rw [if_neg (fun hc => hek hc.2)]
  | true =>
    simp only [if_true]
    cases hlk : lookupReg reg k with
    | none =>
      refine (map_id_of_eq (fun e he => ?_)).symm
      have : e.1 ≠ k := lookupReg_eq_none_iff.1 hlk e he
      rw [if_neg (fun hc => this hc.2)]
    | some subs =>
      show updateReg reg k (removeFirst f subs) = _
      unfold updateReg
      refine List.map_congr_left (fun e he => ?_)
      by_cases hek : e.1 = k
      · have he2 : e = (k, subs) :=
          eq_of_mem_nodup_fst hnd he (lookupReg_mem hlk) hek
        rw [if_pos hek, if_pos ⟨hek ▸ hp, hek⟩, hek, he2]
      · rw [if_neg hek, if_neg (fun hc => hek hc.2)]

theorem unsubLoop_fn_eq {σ : Type} [DecidableEq σ] (pred : Key → Bool) (f : σ) (ks : List Key)
    {reg : Reg σ} (hnd : (reg.map Prod.fst).Nodup) (hks : ks.Nodup) :
    unsubLoop pred (JSVal.fn f) ks reg =
      reg.map (fun e => if pred e.1 ∧ e.1 ∈ ks then (e.1, removeFirst f e.2) else e) := by
  induction ks generalizing reg with
  | nil => exact (map_id_of_eq (fun e _ => by simp)).symm
  | cons k ks ih =>
    rw [List.nodup_cons] at hks
    have hstep : unsubLoop pred (JSVal.fn f) (k :: ks) reg =
        unsubLoop pred (JSVal.fn f) ks (unsubStep pred (JSVal.fn f) reg k) := rfl
    rw [hstep, unsubStep_fn_eq pred f hnd k]
    have hkeep : ∀ e : Key × List σ,
        ((if pred e.1 ∧ e.1 = k then (e.1, removeFirst f e.2) else e) : Key × List σ).1
          = e.1 := by
      intro e
      by_cases hc : pred e.1 ∧ e.1 = k
      · rw [if_pos hc]
      · rw [if_neg hc]
    have hnd2 : ((reg.map (fun e =>
        if pred e.1 ∧ e.1 = k then (e.1, removeFirst f e.2) else e)).map Prod.fst).Nodup := by
      rw [map_fst_map_keyPreserving hkeep]
      exact hnd
    rw [ih hnd2 hks.2, List.map_map]
    refine List.map_congr_left (fun e _ => ?_)
    simp only [Function.comp_apply]
    by_cases hpe : pred e.1 = true
    · by_cases hek : e.1 = k
      · have hp2 : pred k = true := hek ▸ hpe
        simp [hpe, hek, hp2, hks.1]
      · by_cases heks : e.1 ∈ ks <;> simp [hpe, hek, heks, List.mem_cons]
    · simp [hpe]

theorem unsubWith_fn_eq {σ : Type} [DecidableEq σ] (pred : Key → Bool) (f : σ) {reg : Reg σ}
    (hnd : (reg.map Prod.fst).Nodup) :
    unsubWith pred (JSVal.fn f) reg =
      reg.map (fun e => if pred e.1 then (e.1, removeFirst f e.2) else e) := by
  unfold unsubWith
  rw [unsubLoop_fn_eq pred f _ hnd (iterationOrder_keys_nodup hnd)]
  refine List.map_congr_left (fun e he => ?_)
  have hmem : e.1 ∈ (iterationOrder reg).map Prod.fst :=
    List.mem_map_of_mem Prod.fst (mem_iterationOrder.2 he)
  by_cases hpe : pred e.1 <;> simp [hpe, hmem]

theorem unsubStep_del_eq {σ : Type} [DecidableEq σ] (pred : Key → Bool) {arg : JSVal σ}
    (har : truthy arg = false) (reg : Reg σ) (k : Key) :
    unsubStep pred arg reg k =
      reg.filter (fun e => !(pred e.1 && decide (e.1 = k))) := by
  unfold unsubStep
  cases hp : pred k with
  | false =>
    simp only [Bool.false_eq_true, if_false]
    symm
    rw [List.filter_eq_self]
    intro e _
    by_cases hek : e.1 = k
    · rw [hek]
      simp [hp]
    · simp [hek]
  | true =>
    simp only [if_true]
    cases hlk : lookupReg reg k with
    | none =>
      symm
      rw [List.filter_eq_self]
      intro e he
      have : e.1 ≠ k := lookupReg_eq_none_iff.1 hlk e he
      simp [this]
    | some subs =>
      rw [har]
      show deleteReg reg k = _
      unfold deleteReg
      refine List.filter_congr (fun e _ => ?_)
      by_cases hek : e.1 = k
      · rw [hek]
        simp [hp]
      · simp [hek]

theorem unsubLoop_del_eq {σ : Type} [DecidableEq σ] (pred : Key → Bool) {arg : JSVal σ}
    (har : truthy arg = false) (ks : List Key) (reg : Reg σ) :
    unsubLoop pred arg ks reg =
      reg.filter (fun e => !(pred e.1 && decide (e.1 ∈ ks))) := by
  induction ks generalizing reg with
  | nil =>
    have h0 : unsubLoop pred arg [] reg = reg := rfl
    rw [h0]
    symm
    rw [List.filter_eq_self]
    intro e _
    simp
  | cons k ks ih =>
    have hstep : unsubLoop pred arg (k :: ks) reg =
        unsubLoop pred arg ks (unsubStep pred arg reg k) := rfl
    rw [hstep, ih, unsubStep_del_eq pred har, List.filter_filter]
    refine List.filter_congr (fun e _ => ?_)
    by_cases hpe : pred e.1 = true
    · by_cases hek : e.1 = k
      · have hp2 : pred k = true := hek ▸ hpe
        simp [hpe, hek, hp2, List.mem_cons]
      · by_cases heks : e.1 ∈ ks <;> simp [hpe, hek, heks, List.mem_cons]
    · rw [Bool.not_eq_true] at hpe
      simp [hpe]

theorem unsubWith_del_eq {σ : Type} [DecidableEq σ] (pred : Key → Bool) (arg : JSVal σ)
    (har : truthy arg = false) (reg : Reg σ) :
    unsubWith pred arg reg = reg.filter (fun e => !(pred e.1)) := by
  unfold unsubWith
  rw [unsubLoop_del_eq pred har]
  refine List.filter_congr (fun e he => ?_)
  have hmem : e.1 ∈ (iterationOrder reg).map Prod.fst :=
    List.mem_map_of_mem Prod.fst (mem_iterationOrder.2 he)
  simp [hmem]

/-! ### Wildcard-compilation lemmas -/

theorem rsAux_no_star {s : Key} (h : '*' ∉ s) :
    rsAux RSState.idle s = s ∧ ∀ p : Char, rsAux (RSState.pending p) s = p :: s := by
  induction s with
  | nil => exact ⟨rfl, fun p => rfl⟩
  | cons c rest ih =>
    have hc : c ≠ '*' := fun hx => h (by rw [← hx]; exact List.mem_cons_self c rest)
    have h2 : '*' ∉ rest := fun hm => h (List.mem_cons_of_mem _ hm)
    obtain ⟨ih1, ih2⟩ := ih h2
    constructor
    · by_cases hb : c = '\\'
      · simp only [rsAux, if_pos hb, ih1]
      · simp only [rsAux, if_neg hb, ih2]
    · intro p
      by_cases hb : c = '\\'
      · simp only [rsAux, if_neg hc, if_pos hb, ih1]
      · simp only [rsAux, if_neg hc, if_neg hb, ih2]

theorem replaceLeadingStar_no_star {s : Key} (h : '*' ∉ s) : replaceLeadingStar s = s := by
  unfold replaceLeadingStar
  split
  · rename_i rest
    exact absurd (List.mem_cons_self '*' rest) h
  · rfl

theorem wildcardSource_no_star {s : Key} (h : '*' ∉ s) : wildcardSource s = s := by
  unfold wildcardSource replaceStars
  rw [(rsAux_no_star h).1]
  exact replaceLeadingStar_no_star h

theorem piAux_all_lit {s : Key} (h : ∀ c ∈ s, c ∉ regexMeta) :
    piAux PState.normal s = some (s.map RItem.lit) := by
  induction s with
  | nil => rfl
  | cons c rest ih =>
    have hc : c ∉ regexMeta := h c (List.mem_cons_self c rest)
    have hb : c ≠ '\\' := fun hx => hc (by rw [hx]; decide)
    have hd : c ≠ '.' := fun hx => hc (by rw [hx]; decide)
    rw [show piAux PState.normal (c :: rest) =
        (piAux PState.normal rest).map (fun items => RItem.lit c :: items) by
      simp only [piAux, if_neg hb, if_neg hd, if_neg hc]]
    rw [ih (fun a ha => h a (List.mem_cons_of_mem _ ha))]
    rfl

theorem itemsMatch_map_lit (l k : Key) : itemsMatch (l.map RItem.lit) k = decide (k = l) := by
  induction l generalizing k with
  | nil =>
    cases k with
    | nil => rfl
    | cons x xs => simp [itemsMatch]
  | cons c cs ih =>
    cases k with
    | nil => simp [itemsMatch]
    | cons x xs =>
      simp only [List.map_cons, itemsMatch, ih]
      by_cases hx : x = c <;> by_cases hxs : xs = cs <;> simp [hx, hxs]

theorem specTest_no_meta {spec : Key} (h : ∀ c ∈ spec, c ∉ regexMeta) (key : Key) :
    specTest spec key = some (decide (key = spec)) := by
  have hstar : '*' ∉ spec := fun hs => h '*' hs (by decide)
  have h0 : specTest spec key
      = (Option.map (fun items key => itemsMatch items key)
          (piAux PState.normal (wildcardSource spec))).map (fun p => p key) := rfl
  rw [h0, wildcardSource_no_star hstar, piAux_all_lit h]
  simp only [Option.map_some']
  rw [itemsMatch_map_lit]

/-! ### Subscribe-invariant lemmas -/

theorem updateReg_map_fst {σ : Type} (reg : Reg σ) (t : Key) (v : List σ) :
    (updateReg reg t v).map Prod.fst = reg.map Prod.fst := by
  unfold updateReg
  exact map_fst_map_keyPreserving (fun e => by
    by_cases hc : e.1 = t
    · rw [if_pos hc, hc]
    · rw [if_neg hc])

theorem subscribePure_eq_of_lookup_none {σ : Type} [DecidableEq σ] {reg : Reg σ} {t : Key}
    {f : σ} (h : lookupReg reg t = none) : subscribePure reg t f = reg ++ [(t, [f])] := by
  unfold subscribePure
  rw [h]

theorem subscribePure_eq_of_lookup_some {σ : Type} [DecidableEq σ] {reg : Reg σ} {t : Key}
    {f : σ} {subs : List σ} (h : lookupReg reg t = some subs) :
    subscribePure reg t f = if f ∈ subs then reg else updateReg reg t (subs ++ [f]) := by
  unfold subscribePure
  rw [h]

theorem regWF_subscribePure {σ : Type} [DecidableEq σ] {reg : Reg σ} (hwf : RegWF reg)
    (t : Key) (f : σ) : RegWF (subscribePure reg t f) := by
  cases hlk : lookupReg reg t with
  | none =>
    rw [subscribePure_eq_of_lookup_none hlk]
    constructor
    · rw [List.map_append]
      rw [List.nodup_append]
      refine ⟨hwf.1, List.nodup_singleton _, fun a ha hb => ?_⟩
      rcases List.mem_singleton.1 hb with rfl
      obtain ⟨e, he, hfst⟩ := List.mem_map.1 ha
      exact lookupReg_eq_none_iff.1 hlk e he hfst
    · intro e he
      rcases List.mem_append.1 he with h | h
      · exact hwf.2 e h
      · rcases List.mem_singleton.1 h with rfl
        exact List.nodup_singleton f
  | some subs =>
    rw [subscribePure_eq_of_lookup_some hlk]
    by_cases hf : f ∈ subs
    · rw [if_pos hf]
      exact hwf
    · rw [if_neg hf]
      constructor
      · rw [updateReg_map_fst]
        exact hwf.1
      · intro e he
        obtain ⟨e', he', hmap⟩ := List.mem_map.1 he
        by_cases hc : e'.1 = t
        · rw [if_pos hc] at hmap
          rw [← hmap]
          have hsubs : subs.Nodup := hwf.2 (t, subs) (lookupReg_mem hlk)
          simp [List.nodup_append, hsubs, List.Disjoint]
          intro a ha hfa
          rw [hfa] at ha
          exact hf ha
        · rw [if_neg hc] at hmap
          rw [← hmap]
          exact hwf.2 e' he'

theorem regWF_subscribeMany {σ : Type} [DecidableEq σ] (ops : List (Key × σ)) :
    RegWF (subscribeMany ops) := by
  have hgen : ∀ (reg : Reg σ), RegWF reg →
      RegWF (ops.foldl (fun reg op => subscribePure reg op.1 op.2) reg) := by
    induction ops with
    | nil => exact fun reg h => h
    | cons op ops ih => exact fun reg h => ih _ (regWF_subscribePure h op.1 op.2)
  exact hgen [] ⟨List.nodup_nil, fun e he => absurd he (List.not_mem_nil e)⟩

theorem subscribePure_mem_noop {σ : Type} [DecidableEq σ] {reg : Reg σ} {t : Key} {f : σ}
    {subs : List σ} (h : lookupReg reg t = some subs) (hf : f ∈ subs) :
    subscribePure reg t f = reg := by
  rw [subscribePure_eq_of_lookup_some h, if_pos hf]

theorem subscribePure_idem {σ : Type} [DecidableEq σ] (reg : Reg σ) (t : Key) (f : σ) :
    subscribePure (subscribePure reg t f) t f = subscribePure reg t f := by
  have h : ∃ subs, lookupReg (subscribePure reg t f) t = some subs ∧ f ∈ subs := by
    cases hlk : lookupReg reg t with
    | none =>
      refine ⟨[f], ?_, List.mem_singleton.2 rfl⟩
      rw [subscribePure_eq_of_lookup_none hlk, lookupReg_append_left_none hlk]
      simp [lookupReg]
    | some subs =>
      rw [subscribePure_eq_of_lookup_some hlk]
      by_cases hf : f ∈ subs
      · rw [if_pos hf]
        exact ⟨subs, hlk, hf⟩
      · rw [if_neg hf]
        exact ⟨subs ++ [f], lookupReg_updateReg_self hlk, by simp⟩
  obtain ⟨subs, hs, hf⟩ := h
  exact subscribePure_mem_noop hs hf

theorem lookupReg_subscribePure_self {σ : Type} [DecidableEq σ] {reg : Reg σ} (hwf : RegWF reg)
    (t : Key) (f : σ) :
    ∃ subs, lookupReg (subscribePure reg t f) t = some subs ∧ subs.count f = 1 := by
  cases hlk : lookupReg reg t with
  | none =>
    refine ⟨[f], ?_, by simp⟩
    rw [subscribePure_eq_of_lookup_none hlk, lookupReg_append_left_none hlk]
    simp [lookupReg]
  | some subs =>
    have hnd : subs.Nodup := hwf.2 (t, subs) (lookupReg_mem hlk)
    rw [subscribePure_eq_of_lookup_some hlk]
    by_cases hf : f ∈ subs
    · rw [if_pos hf]
      exact ⟨subs, hlk, List.count_eq_one_of_mem hnd hf⟩
    · rw [if_neg hf]
      refine ⟨subs ++ [f], lookupReg_updateReg_self hlk, ?_⟩
      rw [List.count_append, List.count_eq_zero.2 hf]
      simp

theorem filter_key_singleton {σ : Type} {es : Reg σ} (hnd : (es.map Prod.fst).Nodup)
    {t : Key} {subs : List σ} (hmem : (t, subs) ∈ es) :
    es.filter (fun e => decide (e.1 = t)) = [(t, subs)] := by
  induction es with
  | nil => cases hmem
  | cons e es ih =>
    rw [List.map_cons, List.nodup_cons] at hnd
    rcases List.mem_cons.1 hmem with h | h
    · have hfst : e.1 = t := congrArg Prod.fst h.symm
      rw [List.filter_cons, if_pos (by simp [hfst]), ← h]
      have hnil : es.filter (fun e => decide (e.1 = t)) = [] := by
        rw [List.filter_eq_nil_iff]
        intro e' he'
        simp only [decide_eq_true_eq]
        intro hft
        exact hnd.1 (hfst ▸ hft ▸ List.mem_map_of_mem Prod.fst he')
      rw [hnil]
    · have hfst : e.1 ≠ t := by
        intro hft
        exact hnd.1 (hft ▸ List.mem_map_of_mem Prod.fst h)
      rw [List.filter_cons, if_neg (by simp [hfst]), ih hnd.2 h]

theorem predOf_no_meta {t : Key} (h : ∀ c ∈ t, c ∉ regexMeta) :
    predOf (CompiledTopics.wildcard (wildcardSource t))
      = some (fun key => itemsMatch (t.map RItem.lit) key) := by
  have hstar : '*' ∉ t := fun hs => h '*' hs (by decide)
  have h0 : predOf (CompiledTopics.wildcard (wildcardSource t))
      = Option.map (fun items key => itemsMatch items key)
          (piAux PState.normal (wildcardSource t)) := rfl
  rw [h0, wildcardSource_no_star hstar, piAux_all_lit h]
  rfl

/-! ### Claim theorems -/

/-- C2 (amended): for every string topic spec containing no asterisk and no
other JavaScript regex metacharacter (`^ $ \ . + ? ( ) [ ] { } |`), the
compiled predicate used by `publish` and `unsubscribe` matches a key iff the
key is the identical string, and no other key is selected.  (Without the
added metacharacter restriction the claim fails: the spec is pasted into the
regex source unescaped, so a no-asterisk spec such as `'a.c'` also matches
`'abc'`.) -/
theorem literal_spec_matches_iff_equal {spec : Key} (h : ∀ c ∈ spec, c ∉ regexMeta)
    (key : Key) : specTest spec key = some (decide (key = spec)) :=
  specTest_no_meta h key

/-- Witness for C2's amended theorem: `'ab'` matches itself and not `'ax'`. -/
theorem literal_spec_matches_iff_equal_witness :
    specTest ['a','b'] ['a','b'] = some (decide ((['a','b'] : Key) = ['a','b']))
    ∧ specTest ['a','b'] ['a','x'] = some (decide ((['a','x'] : Key) = ['a','b'])) :=
  ⟨literal_spec_matches_iff_equal (by decide) ['a','b'],
    literal_spec_matches_iff_equal (by decide) ['a','x']⟩

/-- C2 counterexample: `'a.c'` contains no asterisk, yet its compiled predicate
matches the different key `'abc'`: the unescaped dot acts as a regex
metacharacter, so matching is not string identity. -/
theorem literal_spec_matches_other_key :
    specTest ['a','.','c'] ['a','b','c'] = some true
    ∧ (['a','b','c'] : Key) ≠ ['a','.','c']
    ∧ ('*' : Char) ∉ (['a','.','c'] : Key) := by
  refine ⟨?_, ?_, ?_⟩ <;> decide

/-- C3: the spec `a\*z` (backslash then asterisk between `a` and `z`) denotes a
literal asterisk: its compiled predicate matches exactly the key `a*z` — hence
it matches `a*z` and rejects both `az` and `amz` — and is not expanded as a
wildcard. -/
theorem escaped_star_literal (key : Key) :
    specTest ['a','\\','*','z'] key = some (decide (key = ['a','*','z'])) := by
  have h1 : specTest ['a','\\','*','z'] key
      = some (itemsMatch ((['a','*','z'] : Key).map RItem.lit) key) := rfl
  rw [h1, itemsMatch_map_lit]

/-- C1 (amended): when the context's registry exists, `publish` and
`unsubscribe` with a `topics` argument that is neither a string nor a RegExp
throw a `TypeError` before any mutation or dispatch; but when the registry does
not exist yet, `forEachTopic` returns before validating, so `publish` returns
`[]` and `unsubscribe` is a silent no-op with no error. -/
theorem invalid_topics_error_only_with_registry {σ ρ ε : Type} [DecidableEq σ]
    (reg : Reg σ) (topics arg : JSVal σ) (call : σ → Except ε ρ)
    (h : isTopicSpec topics = false) :
    publish (some reg) topics call = some PublishResult.typeError
    ∧ unsubscribe (some reg) topics arg = some UnsubResult.typeError
    ∧ publish none topics call = some (PublishResult.ok [])
    ∧ unsubscribe none topics arg = some (UnsubResult.ok none) := by
  cases topics <;> simp_all [isTopicSpec, publish, unsubscribe, compileArg]

/-- Witness for C1's amended theorem at concrete arguments. -/
theorem invalid_topics_error_only_with_registry_witness :
    publish (some ([] : Reg Nat)) JSVal.truthyOther
        (fun _ => Except.ok (0 : Nat) : Nat → Except Unit Nat) = some PublishResult.typeError
    ∧ unsubscribe (some ([] : Reg Nat)) JSVal.truthyOther JSVal.falsy
        = some UnsubResult.typeError
    ∧ publish none JSVal.truthyOther
        (fun _ => Except.ok (0 : Nat) : Nat → Except Unit Nat) = some (PublishResult.ok [])
    ∧ unsubscribe (σ := Nat) none JSVal.truthyOther JSVal.falsy
        = some (UnsubResult.ok none) :=
  invalid_topics_error_only_with_registry [] JSVal.truthyOther JSVal.falsy
    (fun _ => Except.ok 0) rfl

/-- C1 counterexample: on a context whose registry does not exist yet, `publish`
and `unsubscribe` with an invalid `topics` argument raise no error at all,
contrary to the claim's "regardless of whether the context's registry exists
yet": `publish` returns `[]`. -/
theorem invalid_topics_no_registry_no_error :
    publish (σ := Nat) (ρ := Nat) (ε := Unit) none JSVal.truthyOther (fun _ => Except.ok 0)
        = some (PublishResult.ok [])
    ∧ publish (σ := Nat) (ρ := Nat) (ε := Unit) none JSVal.truthyOther (fun _ => Except.ok 0)
        ≠ some PublishResult.typeError
    ∧ unsubscribe (σ := Nat) none JSVal.truthyOther JSVal.falsy = some (UnsubResult.ok none)
    ∧ unsubscribe (σ := Nat) none JSVal.truthyOther JSVal.falsy ≠ some UnsubResult.typeError := by
  refine ⟨rfl, ?_, rfl, ?_⟩ <;> decide

/-- C4 (amended): `publish` returns one flat array containing exactly the return
value of every invoked subscriber, each placed exactly as returned (a pending
promise-like value is neither awaited nor inspected, `ρ` being opaque), in
visitation order: matching topics in `for in` order — array-index-like keys
ascending first, then the remaining keys in registry insertion order — and
subscribers in subscription order within each topic. -/
theorem publish_collects_results {σ ρ ε : Type} (reg : Reg σ) (topics : JSVal σ)
    (ct : CompiledTopics) (pred : Key → Bool) (g : σ → ρ)
    (hnd : (reg.map Prod.fst).Nodup) (hct : compileArg topics = Except.ok ct)
    (hp : predOf ct = some pred) :
    publish (ε := ε) (some reg) topics (fun s => Except.ok (g s)) =
      some (PublishResult.ok ((selectedSubs pred reg).map g)) := by
  unfold publish
  simp only [hct, hp, Option.map_some']
  rw [publishWith_eq_callSubs _ _ hnd, callSubs_ok_map]

/-- Witness for C4's amended theorem at concrete arguments. -/
theorem publish_collects_results_witness :
    publish (ε := Unit) (some ([((['a'] : Key), [3])] : Reg Nat)) (JSVal.str ['a'])
        (fun s => Except.ok (Nat.succ s)) =
      some (PublishResult.ok ((selectedSubs (fun key => itemsMatch [RItem.lit 'a'] key)
        ([((['a'] : Key), [3])] : Reg Nat)).map Nat.succ)) :=
  publish_collects_results _ _ (CompiledTopics.wildcard (wildcardSource ['a']))
    (fun key => itemsMatch [RItem.lit 'a'] key) Nat.succ (by decide) rfl rfl

/-- C4 counterexample: keys `"10"` and `"2"` subscribed in that order are
visited by `for in` in ascending numeric order, so `publish('*')` returns the
results as `[2, 1]`, not in registry insertion order `[1, 2]` as the claim
states. -/
theorem publish_order_not_insertion :
    publish (ε := Unit) (some (subscribeMany [((['1','0'] : Key), 1), (['2'], 2)]))
        (JSVal.str ['*']) (fun s => Except.ok s) = some (PublishResult.ok [2, 1])
    ∧ ([2, 1] : List Nat) ≠ [1, 2] := by
  exact ⟨by decide, by decide⟩

/-- C7: an exception thrown synchronously by a subscriber propagates out of
`publish` unmodified and immediately: the result is that exception, not a
(partial) result array, and it does not depend on `call`'s behaviour on the
subscribers after the throwing one, which are therefore never invoked. -/
theorem publish_subscriber_exception {σ ρ ε : Type} (reg : Reg σ) (topics : JSVal σ)
    (ct : CompiledTopics) (pred : Key → Bool) (call : σ → Except ε ρ)
    (pre post : List σ) (b : σ) (e : ε)
    (hnd : (reg.map Prod.fst).Nodup) (hct : compileArg topics = Except.ok ct)
    (hp : predOf ct = some pred) (hsel : selectedSubs pred reg = pre ++ b :: post)
    (hpre : ∀ s ∈ pre, ∃ r, call s = Except.ok r) (hb : call b = Except.error e) :
    publish (some reg) topics call = some (PublishResult.subscriberError e) := by
  have h1 : publishWith call pred reg = Except.error e := by
    rw [publishWith_eq_callSubs _ _ hnd, hsel]
    exact callSubs_error_at hpre hb
  unfold publish
  simp only [hct, hp, Option.map_some']
  rw [h1]

/-- Witness for C7's theorem: two subscribers on one topic, the first throws. -/
theorem publish_subscriber_exception_witness :
    publish (some ([((['a'] : Key), [0, 1])] : Reg Nat))
        (JSVal.str ['a']) (fun s => if s = 0 then Except.error 5 else Except.ok s)
      = some (PublishResult.subscriberError (5 : Nat)) :=
  publish_subscriber_exception _ _ (CompiledTopics.wildcard (wildcardSource ['a']))
    (fun key => itemsMatch [RItem.lit 'a'] key) _ [] [1] 0 5 (by decide) rfl rfl
    (by decide) (by simp) rfl

/-- C8: matching is anchored asymmetrically.  A wildcard-derived spec is
anchored to the whole key: `'a*e'` matches `'abe'` but matches neither
`'xabey'` nor `'abex'`, in which it occurs only as a proper substring.  A
caller-supplied general pattern passes through `compileArg`/`predOf` untouched
and is used as the predicate directly, so an unanchored pattern (here:
"contains an `'a'`") selects a key such as `'bad'` that it matches only by
substring. -/
theorem anchoring_asymmetry :
    (∀ p : Key → Bool,
      compileArg (σ := Nat) (JSVal.regexp p) = Except.ok (CompiledTopics.native p)
      ∧ predOf (CompiledTopics.native p) = some p)
    ∧ specTest ['a','*','e'] ['a','b','e'] = some true
    ∧ specTest ['a','*','e'] ['x','a','b','e','y'] = some false
    ∧ specTest ['a','*','e'] ['a','b','e','x'] = some false
    ∧ publish (ε := Unit) (some ([((['b','a','d'] : Key), [7])] : Reg Nat))
        (JSVal.regexp (fun k => decide ('a' ∈ k))) (fun s => Except.ok s)
        = some (PublishResult.ok [7]) := by
  refine ⟨fun p => ⟨rfl, rfl⟩, ?_, ?_, ?_, ?_⟩ <;> decide

/-- C5 (amended): after any sequence of `subscribe` calls, each topic's
subscriber list contains a given function reference at most once; a second
subscribe of the same (topic, subscriber) pair is a no-op; and a later
`publish` to that topic invokes the subscriber exactly once (its value appears
exactly once in the result list) provided the topic string contains no
asterisk or other regex metacharacter, so that its compiled spec selects
exactly its own entry.  (For a topic containing a wildcard, the publish can
also select other matching topics the same subscriber is bound to and invoke
it once per such topic.) -/
theorem subscribe_idempotent_single_invocation {σ : Type} [DecidableEq σ]
    (ops : List (Key × σ)) (t : Key) (f : σ) :
    (∀ subs : List σ, lookupReg (subscribeMany ops) t = some subs → subs.count f ≤ 1)
    ∧ subscribeMany (ops ++ [(t, f), (t, f)]) = subscribeMany (ops ++ [(t, f)])
    ∧ ((∀ c ∈ t, c ∉ regexMeta) →
        ∃ rs : List σ, publish (ε := Unit) (some (subscribeMany (ops ++ [(t, f)])))
            (JSVal.str t) (fun s => Except.ok s) = some (PublishResult.ok rs)
          ∧ rs.count f = 1) := by
  have hwf : RegWF (subscribeMany ops) := regWF_subscribeMany ops
  have e1 : subscribeMany (ops ++ [(t, f), (t, f)])
      = subscribePure (subscribePure (subscribeMany ops) t f) t f := by
    unfold subscribeMany
    rw [List.foldl_append]
    rfl
  have e2 : subscribeMany (ops ++ [(t, f)]) = subscribePure (subscribeMany ops) t f := by
    unfold subscribeMany
    rw [List.foldl_append]
    rfl
  refine ⟨?_, ?_, ?_⟩
  · intro subs h
    have hnd : subs.Nodup := hwf.2 (t, subs) (lookupReg_mem h)
    exact List.nodup_iff_count_le_one.1 hnd f
  · rw [e1, e2, subscribePure_idem]
  · intro hmeta
    have hwf2 : RegWF (subscribePure (subscribeMany ops) t f) :=
      regWF_subscribePure hwf t f
    obtain ⟨subs, hlk2, hcount⟩ := lookupReg_subscribePure_self hwf t f
    have hsel : selectedSubs (fun key => itemsMatch (t.map RItem.lit) key)
        (subscribePure (subscribeMany ops) t f) = subs := by
      unfold selectedSubs
      have hfc : (iterationOrder (subscribePure (subscribeMany ops) t f)).filter
            (fun e => itemsMatch (t.map RItem.lit) e.1)
          = (iterationOrder (subscribePure (subscribeMany ops) t f)).filter
            (fun e => decide (e.1 = t)) :=
        List.filter_congr (fun e _ => itemsMatch_map_lit t e.1)
      rw [hfc, filter_key_singleton (iterationOrder_keys_nodup hwf2.1)
        (mem_iterationOrder.2 (lookupReg_mem hlk2))]
      simp [concatSubs]
    have hpw : publishWith (fun s => Except.ok s : σ → Except Unit σ)
        (fun key => itemsMatch (t.map RItem.lit) key)
        (subscribePure (subscribeMany ops) t f) = Except.ok subs := by
      rw [publishWith_eq_callSubs _ _ hwf2.1]
      have hco : callSubs (fun s => Except.ok s : σ → Except Unit σ)
          (selectedSubs (fun key => itemsMatch (t.map RItem.lit) key)
            (subscribePure (subscribeMany ops) t f))
          = Except.ok ((selectedSubs (fun key => itemsMatch (t.map RItem.lit) key)
              (subscribePure (subscribeMany ops) t f)).map (fun s => s)) :=
        callSubs_ok_map _ _
      rw [hco, List.map_id', hsel]
    refine ⟨subs, ?_, hcount⟩
    rw [e2]
    unfold publish
    have hca : compileArg (σ := σ) (JSVal.str t)
        = Except.ok (CompiledTopics.wildcard (wildcardSource t)) := rfl
    simp only [hca, predOf_no_meta hmeta, Option.map_some']
    rw [hpw]

/-- Witness for C5's amended theorem: topic `'a'` after a prior subscription on
`'b'`, with the inner metacharacter hypothesis discharged concretely. -/
theorem subscribe_idempotent_single_invocation_witness :
    (∀ subs : List Nat, lookupReg (subscribeMany [((['b'] : Key), 1)]) ['a'] = some subs →
        subs.count 1 ≤ 1)
    ∧ subscribeMany ([((['b'] : Key), 1)] ++ [((['a'] : Key), 1), (['a'], 1)])
        = subscribeMany ([((['b'] : Key), 1)] ++ [((['a'] : Key), 1)])
    ∧ (∃ rs : List Nat,
        publish (ε := Unit) (some (subscribeMany ([((['b'] : Key), 1)] ++ [((['a'] : Key), 1)])))
            (JSVal.str ['a']) (fun s => Except.ok s) = some (PublishResult.ok rs)
          ∧ rs.count 1 = 1) :=
  ⟨(subscribe_idempotent_single_invocation [((['b'] : Key), 1)] ['a'] 1).1,
    (subscribe_idempotent_single_invocation [((['b'] : Key), 1)] ['a'] 1).2.1,
    (subscribe_idempotent_single_invocation [((['b'] : Key), 1)] ['a'] 1).2.2 (by decide)⟩

/-- C5 counterexample: subscriber `7` is bound to `'ab'` and — once, despite two
subscribe calls — to `'a*'`; `publish('a*')` wildcard-expands the topic string,
matches both keys, and invokes the subscriber twice, so "a later publish to
that topic invokes the subscriber exactly once" fails as universally stated. -/
theorem publish_topic_invokes_twice :
    publish (ε := Unit)
        (some (subscribeMany [((['a','b'] : Key), 7), (['a','*'], 7), (['a','*'], 7)]))
        (JSVal.str ['a','*']) (fun s => Except.ok s) = some (PublishResult.ok [7, 7])
    ∧ ([7, 7] : List Nat).count 7 ≠ 1 := by
  exact ⟨by decide, by decide⟩

/-- C6: with a subscriber argument, `unsubscribe` removes exactly that function
reference from each matching topic's list where present, leaves topics where it
is absent untouched without error (`removeFirst` is the identity there), and
never deletes a topic key even when a list becomes empty (the key set is
preserved); with the subscriber omitted (falsy), each matching topic's entire
entry is deleted. -/
theorem unsubscribe_fn_and_omitted {σ : Type} [DecidableEq σ] (reg : Reg σ)
    (topics : JSVal σ) (ct : CompiledTopics) (pred : Key → Bool) (f : σ)
    (hnd : (reg.map Prod.fst).Nodup) (hct : compileArg topics = Except.ok ct)
    (hp : predOf ct = some pred) :
    unsubscribe (some reg) topics (JSVal.fn f) =
      some (UnsubResult.ok (some (reg.map (fun e =>
        if pred e.1 then (e.1, removeFirst f e.2) else e))))
    ∧ ((reg.map (fun e => if pred e.1 then (e.1, removeFirst f e.2) else e)).map Prod.fst
        = reg.map Prod.fst)
    ∧ (∀ subs : List σ, f ∉ subs → removeFirst f subs = subs)
    ∧ unsubscribe (some reg) topics JSVal.falsy =
      some (UnsubResult.ok (some (reg.filter (fun e => !(pred e.1))))) := by
  refine ⟨?_, ?_, fun subs h => removeFirst_of_not_mem h, ?_⟩
  · unfold unsubscribe
    simp only [hct, hp, Option.map_some']
    rw [unsubWith_fn_eq pred f hnd]
  · exact map_fst_map_keyPreserving (fun e => by
      by_cases hc : pred e.1 = true
      · rw [if_pos hc]
      · rw [if_neg hc])
  · unfold unsubscribe
    simp only [hct, hp, Option.map_some']
    rw [unsubWith_del_eq pred JSVal.falsy rfl]

/-- Witness for C6's theorem on a concrete two-topic registry. -/
theorem unsubscribe_fn_and_omitted_witness :
    unsubscribe (some ([((['a'] : Key), [1, 2]), (['b'], [1])] : Reg Nat))
        (JSVal.str ['a']) (JSVal.fn 1) =
      some (UnsubResult.ok (some (([((['a'] : Key), [1, 2]), (['b'], [1])] : Reg Nat).map
        (fun e => if (fun key => itemsMatch [RItem.lit 'a'] key) e.1
          then (e.1, removeFirst 1 e.2) else e))))
    ∧ ((([((['a'] : Key), [1, 2]), (['b'], [1])] : Reg Nat).map
        (fun e => if (fun key => itemsMatch [RItem.lit 'a'] key) e.1
          then (e.1, removeFirst 1 e.2) else e)).map Prod.fst
        = ([((['a'] : Key), [1, 2]), (['b'], [1])] : Reg Nat).map Prod.fst)
    ∧ (∀ subs : List Nat, 1 ∉ subs → removeFirst 1 subs = subs)
    ∧ unsubscribe (some ([((['a'] : Key), [1, 2]), (['b'], [1])] : Reg Nat))
        (JSVal.str ['a']) JSVal.falsy =
      some (UnsubResult.ok (some (([((['a'] : Key), [1, 2]), (['b'], [1])] : Reg Nat).filter
        (fun e => !((fun key => itemsMatch [RItem.lit 'a'] key) e.1))))) :=
  unsubscribe_fn_and_omitted _ _ (CompiledTopics.wildcard (wildcardSource ['a']))
    (fun key => itemsMatch [RItem.lit 'a'] key) 1 (by decide) rfl rfl

/-- C10: a falsy `subscriber` argument (such as `null`, `0`, `false`, or the
empty string) is treated exactly as the omitted-subscriber form: the call
behaves identically to one with the omitted (`undefined`, itself falsy)
argument, each matching topic's entire entry is deleted, and no
invalid-argument error is raised for the non-callable subscriber value. -/
theorem unsubscribe_falsy_as_omitted {σ : Type} [DecidableEq σ] (reg : Reg σ)
    (topics arg : JSVal σ) (ct : CompiledTopics) (pred : Key → Bool)
    (hct : compileArg topics = Except.ok ct) (hp : predOf ct = some pred)
    (har : truthy arg = false) :
    unsubscribe (some reg) topics arg = unsubscribe (some reg) topics JSVal.falsy
    ∧ unsubscribe (some reg) topics arg =
        some (UnsubResult.ok (some (reg.filter (fun e => !(pred e.1))))) := by
  have h1 := unsubWith_del_eq pred arg har reg
  have h2 := unsubWith_del_eq pred (JSVal.falsy (σ := σ)) rfl reg
  constructor
  · unfold unsubscribe
    simp only [hct, hp, Option.map_some', h1, h2]
  · unfold unsubscribe
    simp only [hct, hp, Option.map_some', h1]

/-- Witness for C10's theorem: the falsy empty string as subscriber argument. -/
theorem unsubscribe_falsy_as_omitted_witness :
    unsubscribe (some ([((['a'] : Key), [1])] : Reg Nat)) (JSVal.str ['a']) (JSVal.str [])
        = unsubscribe (some ([((['a'] : Key), [1])] : Reg Nat)) (JSVal.str ['a']) JSVal.falsy
    ∧ unsubscribe (some ([((['a'] : Key), [1])] : Reg Nat)) (JSVal.str ['a']) (JSVal.str [])
        = some (UnsubResult.ok (some (([((['a'] : Key), [1])] : Reg Nat).filter
            (fun e => !((fun key => itemsMatch [RItem.lit 'a'] key) e.1))))) :=
  unsubscribe_falsy_as_omitted _ _ (JSVal.str []) (CompiledTopics.wildcard (wildcardSource ['a']))
    (fun key => itemsMatch [RItem.lit 'a'] key) rfl rfl rfl

/-- C9: `subscribe` throws a `TypeError` exactly when `topic` is not a string or
`subscriber` is not callable, and when it throws the context's state is left
completely unchanged — in particular no registry is allocated. -/
theorem subscribe_typeError_iff {σ : Type} [DecidableEq σ] (st : Option (Reg σ))
    (topic subscriber : JSVal σ) :
    ((subscribe st topic subscriber).thrown.isSome ↔
      (isStringVal topic = false ∨ isFunctionVal subscriber = false))
    ∧ ((subscribe st topic subscriber).thrown.isSome →
        (subscribe st topic subscriber).state = st) := by
  cases topic <;> cases subscriber <;> simp [subscribe, isStringVal, isFunctionVal]

/-- Witness for C9's theorem at concrete arguments. -/
theorem subscribe_typeError_iff_witness :
    (((subscribe (σ := Nat) none JSVal.falsy JSVal.falsy).thrown.isSome ↔
      (isStringVal (JSVal.falsy : JSVal Nat) = false
        ∨ isFunctionVal (JSVal.falsy : JSVal Nat) = false))
    ∧ ((subscribe (σ := Nat) none JSVal.falsy JSVal.falsy).thrown.isSome →
        (subscribe (σ := Nat) none JSVal.falsy JSVal.falsy).state = none)) :=
  subscribe_typeError_iff none JSVal.falsy JSVal.falsy

end Pubsubstar
